import Mathlib

/-!
Verification of the fee-aware stop-loss sizing and sweep engine of
`stop_loss_app.py` (Neodime/Web_Trading_Tool).

The engine is a set of pure arithmetic functions over scalars.  Python
floats are modelled by exact rationals `ℚ`; the explicitly guarded
`float("nan")` values (take-profit and break-even at size zero, pandas'
min over an empty selection) are modelled by `Option.none`.

The candidate stops are produced by `np.linspace`, so they are
`numpy.float64` values and the divisions `q = R/stp` (policies B and C)
and `2*ev/q` (policy B with flat fees) are numpy divisions: by IEEE 754 a
zero divisor yields `±inf` or NaN together with a `RuntimeWarning`, never
an exception.  These two unguarded sites and their propagation through the
effective-stop computation are modelled by the extended-value type `Fl`
(finite rational, `±∞`, NaN); every other division in the engine is
syntactically guarded by a conditional and is translated as the same
conditional over `ℚ`.  An appended row whose entries are all finite is
represented exactly as a `SweepRow`; a row carrying a non-finite entry —
reachable only outside the documented input domain (`riskBudget > 0`,
`minStop > 0`, fee values `≥ 0`) — is the distinguished outcome
`StepResult.nonfiniteRow`.
-/

namespace StopLossApp

/-- The three execution-fee kinds of `EXEC_TYPES`, plus a fourth
constructor for any string that is none of them (the Python dispatch is by
string prefix and falls through to `0.0`). -/
inductive ExecKind where
  | percentOfNotional   -- "% of notional (per leg)"
  | flatPerLeg          -- "Flat $ per leg"
  | spreadPriceUnits    -- "Spread (price units per leg)"
  | unrecognized        -- any other string
deriving DecidableEq, Repr

/-- The three maintenance-fee kinds of `MAINT_TYPES`.  The Python dispatch
in `usd_maint_fee` sends `"None"` to `0.0`, a `"%"` prefix to the percent
formula, and everything else to the flat formula, so the reachable kinds
are exactly these three. -/
inductive MaintKind where
  | none                -- "None"
  | percentPerDay       -- "% of notional per day"
  | flatPerDay          -- "Flat $ per day"
deriving DecidableEq, Repr

/-- Model of `usd_exec_fee(q, p, t, v)`: execution fee in dollars for one leg. -/
def usd_exec_fee (q p : ℚ) (t : ExecKind) (v : ℚ) : ℚ :=
  match t with
  | .percentOfNotional => q * p * v / 100
  | .flatPerLeg        => v
  | .spreadPriceUnits  => q * v
  | .unrecognized      => 0

/-- Model of `usd_maint_fee(q, p, t, v, d)`: maintenance fee in dollars over
`d` days. -/
def usd_maint_fee (q p : ℚ) (t : MaintKind) (v d : ℚ) : ℚ :=
  match t with
  | .none          => 0
  | .percentPerDay => q * p * v / 100 * d
  | .flatPerDay    => v * d

/-- Model of `fee_price_units(t, v, p)`: per-leg execution fee expressed as a
price distance: `v if t.startswith("Spread") else p*v/100 if
t.startswith("%") else 0.0`. -/
def fee_price_units (t : ExecKind) (v p : ℚ) : ℚ :=
  match t with
  | .spreadPriceUnits  => v
  | .percentOfNotional => p * v / 100
  | _                  => 0

/-- The size-independent fee component of `solve_size_exact`:
`(ev*2 if et.startswith("Flat $") else 0.0) + (mv*d if mt.startswith("Flat $") else 0.0)`. -/
def solve_fixed (et : ExecKind) (ev : ℚ) (mt : MaintKind) (mv d : ℚ) : ℚ :=
  (if et = .flatPerLeg then ev * 2 else 0) +
  (if mt = .flatPerDay then mv * d else 0)

/-- The per-unit-size coefficient of `solve_size_exact`:
`stp + (p*ev/100*2 if et.startswith("%") else ev*2 if et.startswith("Spread") else 0.0)
     + (p*mv/100*d if mt.startswith("%") else 0.0)`. -/
def solve_coeff (stp p : ℚ) (et : ExecKind) (ev : ℚ) (mt : MaintKind) (mv d : ℚ) : ℚ :=
  stp +
  (match et with
   | .percentOfNotional => p * ev / 100 * 2
   | .spreadPriceUnits  => ev * 2
   | _                  => 0) +
  (if mt = .percentPerDay then p * mv / 100 * d else 0)

/-- Model of `solve_size_exact(stp, p, R, et, ev, mt, mv, d)`: Policy A closed-form
size; returns `(size, fixed)`.  The Python guard is truthiness
(`... if coeff else 0.0`), i.e. the zero branch is taken exactly when
`coeff == 0`. -/
def solve_size_exact (stp p R : ℚ) (et : ExecKind) (ev : ℚ) (mt : MaintKind)
    (mv d : ℚ) : ℚ × ℚ :=
  let fixed := solve_fixed et ev mt mv d
  let coeff := solve_coeff stp p et ev mt mv d
  (if coeff = 0 then 0 else max ((R - fixed) / coeff) 0, fixed)

/-- Model of `tp_needed(q, p, rr, R, et, ev, mt, mv, d)`: take-profit distance;
`none` models the `float("nan")` returned when `q == 0`. -/
def tp_needed (q p rr R : ℚ) (et : ExecKind) (ev : ℚ) (mt : MaintKind)
    (mv d : ℚ) : Option ℚ :=
  let gross := rr * R + usd_exec_fee q p et ev * 2 + usd_maint_fee q p mt mv d
  if q = 0 then none else some (gross / q)

/-- Value of a `numpy.float64` as it can arise in the sweep loop: a
finite rational, an infinity, or NaN.  Rounding and signed zeros are
abstracted away (arithmetic is exact and `0.0` is unsigned), matching the
exact-rational treatment of the rest of the engine. -/
inductive Fl where
  | fin (x : ℚ)
  | pinf
  | ninf
  | nan
deriving DecidableEq, Repr

/-- IEEE subtraction on `Fl`, as numpy performs it for `stp - shrink`. -/
def Fl.sub : Fl → Fl → Fl
  | .fin x, .fin y => .fin (x - y)
  | .fin _, .pinf  => .ninf
  | .fin _, .ninf  => .pinf
  | .pinf,  .fin _ => .pinf
  | .ninf,  .fin _ => .ninf
  | .pinf,  .ninf  => .pinf
  | .ninf,  .pinf  => .ninf
  | .pinf,  .pinf  => .nan
  | .ninf,  .ninf  => .nan
  | .nan,   _      => .nan
  | _,      .nan   => .nan

/-- IEEE division on `Fl`, as numpy performs it for `R/stp` and `2*ev/q`:
a zero divisor yields `±∞` (or NaN for `0/0`) with a `RuntimeWarning` —
never an exception. -/
def Fl.div : Fl → Fl → Fl
  | .fin x, .fin y =>
      if y = 0 then
        (if 0 < x then .pinf else if x < 0 then .ninf else .nan)
      else .fin (x / y)
  | .fin _, .pinf  => .fin 0
  | .fin _, .ninf  => .fin 0
  | .pinf,  .fin y => if 0 ≤ y then .pinf else .ninf
  | .ninf,  .fin y => if 0 ≤ y then .ninf else .pinf
  | .pinf,  .pinf  => .nan
  | .pinf,  .ninf  => .nan
  | .ninf,  .pinf  => .nan
  | .ninf,  .ninf  => .nan
  | .nan,   _      => .nan
  | _,      .nan   => .nan

/-- IEEE comparison `≤` on `Fl`: every comparison involving NaN is false
(so a NaN effective stop is *kept* by the `if eff <= 0: continue` test). -/
def Fl.le : Fl → Fl → Bool
  | .nan,   _      => false
  | _,      .nan   => false
  | .ninf,  _      => true
  | _,      .pinf  => true
  | .fin x, .fin y => decide (x ≤ y)
  | .pinf,  .fin _ => false
  | .fin _, .ninf  => false
  | .pinf,  .ninf  => false

/-- The three sizing radio-button choices of `main`. -/
inductive Sizing where
  | includeFees   -- "Include fees in sizing"
  | shrinkSL      -- "Shrink SL by round-trip fees"
  | widenTP       -- "Widen TP to absorb fees"
deriving DecidableEq, Repr

/-- One row of the sweep output, the dict appended to `rows` in `main`.
`tp` and `be_dist` are `none` when the Python value is `float("nan")`. -/
structure SweepRow where
  sl       : ℚ
  eff_sl   : ℚ
  size     : ℚ
  fees_pct : ℚ
  tp       : Option ℚ
  be_dist  : Option ℚ
deriving DecidableEq, Repr

/-- Outcome of one iteration of the sweep loop for a candidate stop: the
sample is skipped (`continue`), a row with all-finite entries is appended,
or a row is appended that carries a non-finite entry (`±inf`/NaN
propagated out of an IEEE division by zero; such rows lie beyond the
finite-rational row representation and arise only from zero or negative
inputs outside the engine's documented domain). -/
inductive StepResult where
  | skip
  | row (r : SweepRow)
  | nonfiniteRow
deriving DecidableEq, Repr

/-- The row assembly of the loop body (lines 214–221): fee totals and the
guarded divisions for `Fees_pct` and `BE_dist`. -/
def mkRow (stp p R : ℚ) (et : ExecKind) (ev : ℚ) (mt : MaintKind) (mv d : ℚ)
    (q eff : ℚ) (tp : Option ℚ) : SweepRow :=
  let var_maint := if mt = .flatPerDay then 0 else usd_maint_fee q p mt mv d
  let tot := usd_exec_fee q p et ev * 2 + var_maint +
             (if mt = .flatPerDay then mv * d else 0)
  { sl := stp, eff_sl := eff, size := q,
    fees_pct := if R = 0 then 0 else tot * 100 / R,
    tp := tp,
    be_dist := if q = 0 then none else some (tot / q) }

/-- One full iteration of the sweep loop (lines 198–221) for candidate
stop `stp`.  Policy A solves the size and keeps the nominal stop; under
policies B and C the size `q = R/stp` (and, for flat fees, the shrink
`2*ev/q`) is numpy division modelled on `Fl`, and the IEEE test
`eff <= 0` decides exclusion, so the iteration is total — division by
zero yields `±∞`/NaN, never an exception.  The row assembly `mkRow` is
shared by all policies; a kept row with a non-finite size or effective
stop is reported as `.nonfiniteRow`. -/
def evalCandidate (sizing : Sizing) (stp p R rr : ℚ) (et : ExecKind) (ev : ℚ)
    (mt : MaintKind) (mv d : ℚ) : StepResult :=
  match sizing with
  | .includeFees =>
      let q := (solve_size_exact stp p R et ev mt mv d).1
      .row (mkRow stp p R et ev mt mv d q stp (tp_needed q p rr R et ev mt mv d))
  | .shrinkSL =>
      let q := Fl.div (.fin R) (.fin stp)
      let shrink := if et = .flatPerLeg then Fl.div (.fin (2 * ev)) q
                    else .fin (2 * fee_price_units et ev p)
      let eff := Fl.sub (.fin stp) shrink
      if Fl.le eff (.fin 0) then .skip
      else
        match q, eff with
        | .fin qq, .fin ee =>
            .row (mkRow stp p R et ev mt mv d qq ee (some (rr * stp)))
        | _, _ => .nonfiniteRow
  | .widenTP =>
      match Fl.div (.fin R) (.fin stp) with
      | .fin qq =>
          .row (mkRow stp p R et ev mt mv d qq stp (tp_needed qq p rr R et ev mt mv d))
      | _ => .nonfiniteRow

/-- Model of `np.linspace(a, b, n)`: `n` evenly spaced points from `a` to `b`
inclusive (`[a]` when `n = 1`, `[]` when `n = 0`). -/
def linspace (a b : ℚ) (n : ℕ) : List ℚ :=
  if n ≤ 1 then (List.range n).map (fun _ => a)
  else (List.range n).map (fun (i : ℕ) => a + (b - a) * (i : ℚ) / ((n : ℚ) - 1))

/-- Constant `PTS = 200`, the fixed stop-loss sweep resolution. -/
def PTS : ℕ := 200

/-- The sweep loop over a list of candidate stops, collecting appended
rows in order.  The result is `none` when some appended row carries a
non-finite entry (reachable only outside the documented input domain);
otherwise every appended row is finite and listed. -/
def runSweep (sizing : Sizing) (p R rr : ℚ) (et : ExecKind) (ev : ℚ)
    (mt : MaintKind) (mv d : ℚ) : List ℚ → Option (List SweepRow)
  | [] => some []
  | stp :: rest =>
    match evalCandidate sizing stp p R rr et ev mt mv d with
    | .skip => runSweep sizing p R rr et ev mt mv d rest
    | .row r =>
      match runSweep sizing p R rr et ev mt mv d rest with
      | none => none
      | some rows => some (r :: rows)
    | .nonfiniteRow => none

/-- The complete calculation of `main` after "Generate": sweep over
`np.linspace(min_sl, max_sl, PTS)`. -/
def fullSweep (sizing : Sizing) (min_sl max_sl p R rr : ℚ) (et : ExecKind)
    (ev : ℚ) (mt : MaintKind) (mv d : ℚ) : Option (List SweepRow) :=
  runSweep sizing p R rr et ev mt mv d (linspace min_sl max_sl PTS)

/-- Model of `df[df.Fees_pct <= fee_cap].SL.min()`: minimum nominal stop among
qualifying rows; `none` models pandas' `NaN` on an empty selection. -/
def min_ok (rows : List SweepRow) (cap : ℚ) : Option ℚ :=
  ((rows.filter (fun r => r.fees_pct ≤ cap)).map (fun r => r.sl)).min?

/-- The three user-visible outcomes after the sweep. -/
inductive SweepReport where
  | noFeasiblePoints        -- `st.error("No valid points – widen SL or raise risk")`
  | noThreshold             -- `min_ok` is NaN: no vertical threshold line drawn
  | threshold (s : ℚ)       -- vertical line at the minimum viable stop
deriving DecidableEq, Repr

/-- The reporting control flow of `main` (lines 223–228 and 246): an empty
row list short-circuits to the no-feasible-points error; otherwise the
threshold line is drawn iff `min_ok` is not NaN. -/
def sweepReport (rows : List SweepRow) (cap : ℚ) : SweepReport :=
  if rows.isEmpty then .noFeasiblePoints
  else
    match min_ok rows cap with
    | none   => .noThreshold
    | some s => .threshold s

/-! ## Helper lemmas shared across the verification -/

/-- The round-trip execution fee plus maintenance fee is affine in the
position size, with slope `solve_coeff − stp` and intercept
`solve_fixed`: the decomposition `solve_size_exact` relies on. -/
theorem fees_eq_affine (s stp p : ℚ) (et : ExecKind) (ev : ℚ) (mt : MaintKind)
    (mv d : ℚ) :
    usd_exec_fee s p et ev * 2 + usd_maint_fee s p mt mv d =
      s * (solve_coeff stp p et ev mt mv d - stp) + solve_fixed et ev mt mv d := by
  cases et <;> cases mt <;>
    simp only [usd_exec_fee, usd_maint_fee, solve_coeff, solve_fixed,
      if_pos, if_neg, reduceCtorEq, ite_true, ite_false, reduceIte] <;>
    ring

/-- If Policy A returns a strictly positive size, that size is the exact
solution `(R − fixed) / coeff` of the affine risk equation. -/
theorem solve_size_pos_eq (stp p R : ℚ) (et : ExecKind) (ev : ℚ)
    (mt : MaintKind) (mv d : ℚ)
    (hpos : 0 < (solve_size_exact stp p R et ev mt mv d).1) :
    solve_coeff stp p et ev mt mv d ≠ 0 ∧
    (solve_size_exact stp p R et ev mt mv d).1 =
      (R - solve_fixed et ev mt mv d) / solve_coeff stp p et ev mt mv d := by
  by_cases hc : solve_coeff stp p et ev mt mv d = 0
  · simp [solve_size_exact, hc] at hpos
  · refine ⟨hc, ?_⟩
    have hs : (solve_size_exact stp p R et ev mt mv d).1 =
        max ((R - solve_fixed et ev mt mv d) / solve_coeff stp p et ev mt mv d) 0 := by
      simp [solve_size_exact, hc]
    rw [hs] at hpos ⊢
    rcases le_or_lt ((R - solve_fixed et ev mt mv d) / solve_coeff stp p et ev mt mv d) 0 with h | h
    · rw [max_eq_right h] at hpos
      exact absurd hpos (lt_irrefl 0)
    · exact max_eq_left h.le

/-- Whenever Policy A returns a positive size, the risk identity
`size·stp + 2·execFee(size) + maintFee(size) = R` holds exactly. -/
theorem solve_size_pos_identity (stp p R : ℚ) (et : ExecKind) (ev : ℚ)
    (mt : MaintKind) (mv d : ℚ)
    (hpos : 0 < (solve_size_exact stp p R et ev mt mv d).1) :
    (solve_size_exact stp p R et ev mt mv d).1 * stp +
      usd_exec_fee (solve_size_exact stp p R et ev mt mv d).1 p et ev * 2 +
      usd_maint_fee (solve_size_exact stp p R et ev mt mv d).1 p mt mv d = R := by
  obtain ⟨hc, hs⟩ := solve_size_pos_eq stp p R et ev mt mv d hpos
  set s := (solve_size_exact stp p R et ev mt mv d).1 with hsdef
  have key := fees_eq_affine s stp p et ev mt mv d
  have hsc : s * solve_coeff stp p et ev mt mv d = R - solve_fixed et ev mt mv d := by
    rw [hs]; field_simp
  linear_combination key + hsc

/-- Lemma: numpy division of finite values with a nonzero divisor is exact
rational division. -/
theorem Fl_div_fin_ne (x y : ℚ) (hy : y ≠ 0) :
    Fl.div (.fin x) (.fin y) = .fin (x / y) := by
  simp [Fl.div, hy]

/-- Lemma: numpy subtraction of finite values is exact rational
subtraction. -/
theorem Fl_sub_fin (x y : ℚ) : Fl.sub (.fin x) (.fin y) = .fin (x - y) := rfl

/-- Lemma: the IEEE comparison of finite values is the rational one. -/
theorem Fl_le_fin (x y : ℚ) : Fl.le (.fin x) (.fin y) = decide (x ≤ y) := rfl

/-- Policy A loop body: solves the size, keeps the nominal stop, uses
`tp_needed`; it always appends a (finite) row. -/
theorem evalCandidate_include_eq (stp p R rr ev mv d : ℚ) (et : ExecKind)
    (mt : MaintKind) :
    evalCandidate .includeFees stp p R rr et ev mt mv d =
      .row (mkRow stp p R et ev mt mv d
        (solve_size_exact stp p R et ev mt mv d).1 stp
        (tp_needed (solve_size_exact stp p R et ev mt mv d).1 p rr R et ev mt mv d)) := rfl

/-- Policy B loop body on a nonzero stop with a nonzero size whenever the
flat-fee division needs one: size `R/stp`, shrunk stop, skip when the
shrunk stop is `≤ 0`. -/
theorem evalCandidate_shrink_eq (stp p R rr ev mv d : ℚ) (et : ExecKind)
    (mt : MaintKind) (hstp : stp ≠ 0) (hflat : et = .flatPerLeg → R ≠ 0) :
    evalCandidate .shrinkSL stp p R rr et ev mt mv d =
      (if stp - (if et = .flatPerLeg then 2 * ev / (R / stp)
                 else 2 * fee_price_units et ev p) ≤ 0 then .skip
       else .row (mkRow stp p R et ev mt mv d (R / stp)
         (stp - (if et = .flatPerLeg then 2 * ev / (R / stp)
                 else 2 * fee_price_units et ev p))
         (some (rr * stp)))) := by
  by_cases het : et = .flatPerLeg
  · have hq : R / stp ≠ 0 := div_ne_zero (hflat het) hstp
    subst het
    simp only [evalCandidate, ite_true, reduceIte,
      Fl_div_fin_ne R stp hstp, Fl_div_fin_ne (2 * ev) (R / stp) hq,
      Fl_sub_fin, Fl_le_fin]
    by_cases he : stp - 2 * ev / (R / stp) ≤ 0 <;> simp [he]
  · simp only [evalCandidate, het, ite_false, if_neg, reduceIte,
      Fl_div_fin_ne R stp hstp, Fl_sub_fin, Fl_le_fin]
    by_cases he : stp - 2 * fee_price_units et ev p ≤ 0 <;> simp [he, het]

/-! ## Claim theorems -/

/-- C8. `usd_exec_fee` returns `q·p·v/100` for percent-of-notional,
`v` for flat-per-leg, `q·v` for spread, and `0` for an unrecognized kind;
a flat-per-leg fee is independent of size and price. -/
theorem usd_exec_fee_spec :
    (∀ q p v : ℚ, usd_exec_fee q p .percentOfNotional v = q * p * v / 100) ∧
    (∀ q p v : ℚ, usd_exec_fee q p .flatPerLeg v = v) ∧
    (∀ q p v : ℚ, usd_exec_fee q p .spreadPriceUnits v = q * v) ∧
    (∀ q p v : ℚ, usd_exec_fee q p .unrecognized v = 0) ∧
    (∀ q p q' p' v : ℚ,
      usd_exec_fee q p .flatPerLeg v = usd_exec_fee q' p' .flatPerLeg v) :=
  ⟨fun _ _ _ => rfl, fun _ _ _ => rfl, fun _ _ _ => rfl, fun _ _ _ => rfl,
   fun _ _ _ _ _ => rfl⟩

/-- C9. `usd_maint_fee` returns `0` for kind `None`,
`q·p·v/100·d` for percent-per-day, `v·d` for flat-per-day; a `None`
maintenance kind yields zero for every size, price, days-held and value. -/
theorem usd_maint_fee_spec :
    (∀ q p v d : ℚ, usd_maint_fee q p .none v d = 0) ∧
    (∀ q p v d : ℚ, usd_maint_fee q p .percentPerDay v d = q * p * v / 100 * d) ∧
    (∀ q p v d : ℚ, usd_maint_fee q p .flatPerDay v d = v * d) :=
  ⟨fun _ _ _ _ => rfl, fun _ _ _ _ => rfl, fun _ _ _ _ => rfl⟩

/-- C4. `tp_needed` returns `(rr·R + 2·execFee + maintFee)/q` when
`q ≠ 0` and NaN (`none`) when `q = 0`; for `q > 0` hitting the returned
distance nets exactly `rr·R` after round-trip execution and maintenance
fees. -/
theorem tp_needed_spec (q p rr R : ℚ) (et : ExecKind) (ev : ℚ)
    (mt : MaintKind) (mv d : ℚ) :
    (q = 0 → tp_needed q p rr R et ev mt mv d = none) ∧
    (q ≠ 0 → tp_needed q p rr R et ev mt mv d =
      some ((rr * R + usd_exec_fee q p et ev * 2 + usd_maint_fee q p mt mv d) / q)) ∧
    (∀ t, 0 < q → tp_needed q p rr R et ev mt mv d = some t →
      q * t - usd_exec_fee q p et ev * 2 - usd_maint_fee q p mt mv d = rr * R) := by
  refine ⟨fun h => by simp [tp_needed, h], fun h => by simp [tp_needed, h],
    fun t hq ht => ?_⟩
  have hq' : q ≠ 0 := ne_of_gt hq
  have h2 : tp_needed q p rr R et ev mt mv d =
      some ((rr * R + usd_exec_fee q p et ev * 2 + usd_maint_fee q p mt mv d) / q) := by
    simp [tp_needed, hq']
  rw [h2] at ht
  have ht' : t = (rr * R + usd_exec_fee q p et ev * 2 + usd_maint_fee q p mt mv d) / q :=
    (Option.some_injective ℚ ht).symm
  subst ht'
  field_simp
  ring

/-- Witness for C4 at `q = 2, p = 1, rr = 1, R = 10`, flat-per-leg fee `1`,
no maintenance: the computed distance `6` nets exactly `1 × 10`. -/
theorem tp_needed_spec_witness :
    (2 : ℚ) * 6 - usd_exec_fee 2 1 .flatPerLeg 1 * 2 -
      usd_maint_fee 2 1 .none 0 1 = 1 * 10 :=
  (tp_needed_spec 2 1 1 10 .flatPerLeg 1 .none 0 1).2.2 6 (by norm_num)
    (by simp [tp_needed, usd_exec_fee, usd_maint_fee]; norm_num)

/-- C1 counterexample. At `stp = −1, p = 1, R = 5`, flat-per-leg fee
`10`, no maintenance: `coeff = −1 ≤ 0` yet the solver returns size `15`,
not `0` (the Python guard is `coeff` truthiness, i.e. `coeff == 0`, not
`coeff ≤ 0`). -/
theorem solve_size_exact_coeff_neg_cex :
    solve_coeff (-1) 1 .flatPerLeg 10 .none 0 1 ≤ 0 ∧
    (solve_size_exact (-1) 1 5 .flatPerLeg 10 .none 0 1).1 = 15 := by
  constructor
  · norm_num [solve_coeff]
  · norm_num [solve_size_exact, solve_coeff, solve_fixed]

/-- C1, amended. Policy A returns size `0` when `coeff = 0` (not
`coeff ≤ 0`), and `max((R − fixed)/coeff, 0)` whenever `coeff ≠ 0`
(including `coeff < 0`); whenever the returned size is positive,
`size·stp + 2·execFee(size) + maintFee(size) = R` holds exactly. -/
theorem solve_size_exact_spec (stp p R : ℚ) (et : ExecKind) (ev : ℚ)
    (mt : MaintKind) (mv d : ℚ) :
    (solve_coeff stp p et ev mt mv d = 0 →
      (solve_size_exact stp p R et ev mt mv d).1 = 0) ∧
    (solve_coeff stp p et ev mt mv d ≠ 0 →
      (solve_size_exact stp p R et ev mt mv d).1 =
        max ((R - solve_fixed et ev mt mv d) / solve_coeff stp p et ev mt mv d) 0) ∧
    (0 < (solve_size_exact stp p R et ev mt mv d).1 →
      (solve_size_exact stp p R et ev mt mv d).1 * stp +
        usd_exec_fee (solve_size_exact stp p R et ev mt mv d).1 p et ev * 2 +
        usd_maint_fee (solve_size_exact stp p R et ev mt mv d).1 p mt mv d = R) :=
  ⟨fun h => by simp [solve_size_exact, h],
   fun h => by simp [solve_size_exact, h],
   solve_size_pos_identity stp p R et ev mt mv d⟩

/-- Witness for C1 at Scenario 1 of the spec (`R = 10, p = 1.1,
stp = 0.001`, percent-of-notional `0.10`, no maintenance): the returned
size is positive and satisfies the exact risk identity. -/
theorem solve_size_exact_spec_witness :
    (solve_size_exact (1/1000) (11/10) 10 .percentOfNotional (1/10) .none 0 1).1 * (1/1000) +
      usd_exec_fee (solve_size_exact (1/1000) (11/10) 10 .percentOfNotional (1/10) .none 0 1).1
        (11/10) .percentOfNotional (1/10) * 2 +
      usd_maint_fee (solve_size_exact (1/1000) (11/10) 10 .percentOfNotional (1/10) .none 0 1).1
        (11/10) .none 0 1 = 10 :=
  (solve_size_exact_spec (1/1000) (11/10) 10 .percentOfNotional (1/10) .none 0 1).2.2
    (by simp only [solve_size_exact, solve_coeff, solve_fixed, reduceCtorEq,
          if_false, ite_false]
        norm_num [lt_max_iff])

/-- C2. Policy B: the size of every produced row is `R/stp`, the
effective stop is `stp − 2·feeAsPriceDistance` (flat fees:
`stp − 2·ev/size`), every kept row has a strictly positive effective stop,
and a candidate with effective stop `≤ 0` contributes no row at all (the
loop `continue`s; nothing is clamped to zero). -/
theorem shrink_policy_spec (stp p R rr ev mv d : ℚ) (et : ExecKind)
    (mt : MaintKind) (hstp : stp ≠ 0) (hflat : et = .flatPerLeg → R ≠ 0) :
    (∀ row, evalCandidate .shrinkSL stp p R rr et ev mt mv d = .row row →
      row.size = R / stp ∧
      row.eff_sl = stp - (if et = .flatPerLeg then 2 * ev / (R / stp)
                          else 2 * fee_price_units et ev p) ∧
      0 < row.eff_sl) ∧
    (stp - (if et = .flatPerLeg then 2 * ev / (R / stp)
            else 2 * fee_price_units et ev p) ≤ 0 →
      evalCandidate .shrinkSL stp p R rr et ev mt mv d = .skip) := by
  rw [evalCandidate_shrink_eq stp p R rr ev mv d et mt hstp hflat]
  by_cases he : stp - (if et = .flatPerLeg then 2 * ev / (R / stp)
                       else 2 * fee_price_units et ev p) ≤ 0
  · refine ⟨fun row hrow => ?_, fun _ => by rw [if_pos he]⟩
    rw [if_pos he] at hrow
    exact absurd hrow (by simp)
  · refine ⟨fun row hrow => ?_, fun h => absurd h he⟩
    rw [if_neg he] at hrow
    have hr : row = mkRow stp p R et ev mt mv d (R / stp)
        (stp - (if et = .flatPerLeg then 2 * ev / (R / stp)
                else 2 * fee_price_units et ev p)) (some (rr * stp)) := by
      simpa using hrow.symm
    subst hr
    exact ⟨rfl, rfl, lt_of_not_le he⟩

/-- Witness for C2 at Scenario 4 of the spec: `stp = 0.0005`, spread fee
`0.0003` per leg (round-trip price distance `0.0006`): the sample is
excluded. -/
theorem shrink_policy_spec_witness :
    evalCandidate .shrinkSL (5/10000) 1 10 1 .spreadPriceUnits (3/10000) .none 0 1 =
      .skip :=
  (shrink_policy_spec (5/10000) 1 10 1 (3/10000) 0 1 .spreadPriceUnits .none
      (by norm_num) (by simp)).2
    (by simp only [reduceCtorEq, ite_false, if_false]
        norm_num [fee_price_units])

/-- C3. Policy B: every kept row satisfies
`size·effectiveStop + 2·execFee(size) = size·nominalStop` exactly — the
shrink compensates the round-trip execution fee at constant size, for
every execution-fee kind. -/
theorem shrink_compensation_spec (stp p R rr ev mv d : ℚ) (et : ExecKind)
    (mt : MaintKind) (hstp : stp ≠ 0) (hflat : et = .flatPerLeg → R ≠ 0) :
    ∀ row, evalCandidate .shrinkSL stp p R rr et ev mt mv d = .row row →
      row.size * row.eff_sl + usd_exec_fee row.size p et ev * 2 = row.size * stp := by
  intro row hrow
  obtain ⟨hsize, heff, -⟩ :=
    (shrink_policy_spec stp p R rr ev mv d et mt hstp hflat).1 row hrow
  rw [hsize, heff]
  cases et with
  | flatPerLeg =>
      have hR : R ≠ 0 := hflat rfl
      simp only [ite_true, reduceIte, usd_exec_fee]
      field_simp
      ring
  | percentOfNotional =>
      simp only [reduceCtorEq, ite_false, usd_exec_fee, fee_price_units]
      ring
  | spreadPriceUnits =>
      simp only [reduceCtorEq, ite_false, usd_exec_fee, fee_price_units]
      ring
  | unrecognized =>
      simp only [reduceCtorEq, ite_false, usd_exec_fee, fee_price_units]
      ring

/-- Witness for C3: a kept Policy B row at `stp = 0.001`, spread fee
`0.0001`, `R = 10`: size `10000`, effective stop `0.0008`, and the
compensation identity holds at those concrete values. -/
theorem shrink_compensation_spec_witness :
    (mkRow (1/1000) 1 10 .spreadPriceUnits (1/10000) .none 0 1 (10 / (1/1000))
        ((1/1000) - 2 * fee_price_units .spreadPriceUnits (1/10000) 1)
        (some (1 * (1/1000)))).size *
      (mkRow (1/1000) 1 10 .spreadPriceUnits (1/10000) .none 0 1 (10 / (1/1000))
        ((1/1000) - 2 * fee_price_units .spreadPriceUnits (1/10000) 1)
        (some (1 * (1/1000)))).eff_sl +
      usd_exec_fee (mkRow (1/1000) 1 10 .spreadPriceUnits (1/10000) .none 0 1
        (10 / (1/1000))
        ((1/1000) - 2 * fee_price_units .spreadPriceUnits (1/10000) 1)
        (some (1 * (1/1000)))).size 1 .spreadPriceUnits (1/10000) * 2 =
    (mkRow (1/1000) 1 10 .spreadPriceUnits (1/10000) .none 0 1 (10 / (1/1000))
        ((1/1000) - 2 * fee_price_units .spreadPriceUnits (1/10000) 1)
        (some (1 * (1/1000)))).size * (1/1000) :=
  shrink_compensation_spec (1/1000) 1 10 1 (1/10000) 0 1 .spreadPriceUnits .none
    (by norm_num) (by simp) _
    (by rw [evalCandidate_shrink_eq (1/1000) 1 10 1 (1/10000) 0 1
          .spreadPriceUnits .none (by norm_num) (by simp)]
        simp only [reduceCtorEq, ite_false, if_false]
        norm_num [fee_price_units])

/-- The reported `Fees_pct` of any assembled row, for `R ≠ 0`: total fees
(round-trip execution plus full maintenance) as a percentage of `R`.  The
split into `var_maint` plus the flat term in the code recombines to
`usd_maint_fee`. -/
theorem mkRow_fees_pct (stp p R : ℚ) (et : ExecKind) (ev : ℚ) (mt : MaintKind)
    (mv d q eff : ℚ) (tp : Option ℚ) (hR : R ≠ 0) :
    (mkRow stp p R et ev mt mv d q eff tp).fees_pct =
      (usd_exec_fee q p et ev * 2 + usd_maint_fee q p mt mv d) * 100 / R := by
  cases mt <;> simp [mkRow, usd_maint_fee, hR]

/-- C10. Policy B with active maintenance fees: for every kept row the
shrink compensates only the round-trip execution fee
(`size·(stp − eff) = 2·execFee`), the reported fee metric converts back to
execution *plus maintenance* fees, `size·stp = R`, and therefore the risk
actually at stake (`size·eff` plus total reported fees) strictly exceeds
the risk budget `R = size·stp`. -/
theorem shrink_maintenance_excess (stp p R rr ev mv d : ℚ) (et : ExecKind)
    (mt : MaintKind) (hstp : 0 < stp) (hR : 0 < R) (hp : 0 < p)
    (hmv : 0 < mv) (hd : 1 ≤ d) (hmt : mt ≠ .none) :
    ∀ row, evalCandidate .shrinkSL stp p R rr et ev mt mv d = .row row →
      row.size * (stp - row.eff_sl) = usd_exec_fee row.size p et ev * 2 ∧
      row.fees_pct * R / 100 =
        usd_exec_fee row.size p et ev * 2 + usd_maint_fee row.size p mt mv d ∧
      row.size * stp = R ∧
      row.size * stp < row.size * row.eff_sl + row.fees_pct * R / 100 := by
  intro row hrow
  have hstp' : stp ≠ 0 := ne_of_gt hstp
  have hR' : R ≠ 0 := ne_of_gt hR
  have hflat : et = .flatPerLeg → R ≠ 0 := fun _ => hR'
  have hcomp := shrink_compensation_spec stp p R rr ev mv d et mt hstp' hflat row hrow
  obtain ⟨hsize, heff, -⟩ :=
    (shrink_policy_spec stp p R rr ev mv d et mt hstp' hflat).1 row hrow
  have hfees : row.fees_pct =
      (usd_exec_fee row.size p et ev * 2 + usd_maint_fee row.size p mt mv d) * 100 / R := by
    rw [evalCandidate_shrink_eq stp p R rr ev mv d et mt hstp' hflat] at hrow
    by_cases he : stp - (if et = .flatPerLeg then 2 * ev / (R / stp)
                         else 2 * fee_price_units et ev p) ≤ 0
    · rw [if_pos he] at hrow; exact absurd hrow (by simp)
    · rw [if_neg he] at hrow
      have hr : row = mkRow stp p R et ev mt mv d (R / stp)
          (stp - (if et = .flatPerLeg then 2 * ev / (R / stp)
                  else 2 * fee_price_units et ev p)) (some (rr * stp)) := by
        simpa using hrow.symm
      rw [hr, mkRow_fees_pct _ _ _ _ _ _ _ _ _ _ _ hR']
      have : (mkRow stp p R et ev mt mv d (R / stp)
          (stp - (if et = .flatPerLeg then 2 * ev / (R / stp)
                  else 2 * fee_price_units et ev p)) (some (rr * stp))).size = R / stp := rfl
      rw [this]
  have hpart2 : row.fees_pct * R / 100 =
      usd_exec_fee row.size p et ev * 2 + usd_maint_fee row.size p mt mv d := by
    rw [hfees]; field_simp
  have hpart3 : row.size * stp = R := by
    rw [hsize]; exact div_mul_cancel₀ R hstp'
  have hmaint : 0 < usd_maint_fee row.size p mt mv d := by
    have hq : 0 < row.size := hsize ▸ div_pos hR hstp
    have hd0 : (0 : ℚ) < d := lt_of_lt_of_le one_pos hd
    cases mt with
    | none => exact absurd rfl hmt
    | percentPerDay =>
        show 0 < row.size * p * mv / 100 * d
        exact mul_pos (div_pos (mul_pos (mul_pos hq hp) hmv) (by norm_num)) hd0
    | flatPerDay =>
        show 0 < mv * d
        exact mul_pos hmv hd0
  refine ⟨by linear_combination -hcomp, hpart2, hpart3, ?_⟩
  rw [hpart2]
  linarith [hcomp, hmaint]

/-- Witness for C10: kept Policy B row at `stp = 0.001, p = 1, R = 10`,
spread fee `0.0001`, flat maintenance `0.1` per day, one day held:
`size × stp` recovers the risk budget `10`. -/
theorem shrink_maintenance_excess_witness :
    (mkRow (1/1000) 1 10 .spreadPriceUnits (1/10000) .flatPerDay (1/10) 1
        (10 / (1/1000))
        ((1/1000) - 2 * fee_price_units .spreadPriceUnits (1/10000) 1)
        (some (1 * (1/1000)))).size * (1/1000) = 10 :=
  (shrink_maintenance_excess (1/1000) 1 10 1 (1/10000) (1/10) 1
      .spreadPriceUnits .flatPerDay (by norm_num) (by norm_num) (by norm_num)
      (by norm_num) le_rfl (by simp) _
      (by rw [evalCandidate_shrink_eq (1/1000) 1 10 1 (1/10000) (1/10) 1
            .spreadPriceUnits .flatPerDay (by norm_num) (by simp)]
          simp only [reduceCtorEq, ite_false, if_false]
          norm_num [fee_price_units])).2.2.1

/-- Lemma: `np.linspace` always returns exactly `n` samples. -/
theorem linspace_length (a b : ℚ) (n : ℕ) : (linspace a b n).length = n := by
  unfold linspace
  by_cases h : n ≤ 1
  · rw [if_pos h, List.length_map, List.length_range]
  · rw [if_neg h, List.length_map, List.length_range]

/-- Lemma: `np.linspace` with a positive sample count is non-empty. -/
theorem linspace_ne_nil (a b : ℚ) (n : ℕ) (hn : 0 < n) : linspace a b n ≠ [] := by
  intro h
  have hl := linspace_length a b n
  rw [h] at hl
  simp at hl
  omega

/-- On a non-empty row table, the report is decided by `min_ok` alone. -/
theorem sweepReport_of_ne_nil (rows : List SweepRow) (cap : ℚ)
    (hne : rows ≠ []) :
    sweepReport rows cap = (match min_ok rows cap with
      | none => SweepReport.noThreshold
      | some s => SweepReport.threshold s) := by
  have hE : rows.isEmpty = false := by
    cases rows with
    | nil => exact absurd rfl hne
    | cons a l => rfl
  simp [sweepReport, hE]

/-- Under Policy A the sweep never skips and never faults: it returns one
row per candidate stop, in order. -/
theorem runSweep_include_eq (p R rr ev mv d : ℚ) (et : ExecKind)
    (mt : MaintKind) (stops : List ℚ) :
    runSweep .includeFees p R rr et ev mt mv d stops =
      some (stops.map fun stp => mkRow stp p R et ev mt mv d
        (solve_size_exact stp p R et ev mt mv d).1 stp
        (tp_needed (solve_size_exact stp p R et ev mt mv d).1 p rr R et ev mt mv d)) := by
  induction stops with
  | nil => rfl
  | cons stp rest ih => simp [runSweep, evalCandidate_include_eq, ih]

/-- C7.  The engine performs no input validation of the sweep range:
for every degenerate configuration with `minStop ≥ maxStop` the full sweep
under Policy A still succeeds and produces all `PTS = 200` rows (the
sample count is a fixed constant, so `sampleCount < 1` cannot even occur),
instead of failing fast with an input-validation error. -/
theorem degenerate_range_no_validation (min_sl max_sl p R rr ev mv d : ℚ)
    (et : ExecKind) (mt : MaintKind) (hdeg : max_sl ≤ min_sl) :
    ∃ rows, fullSweep .includeFees min_sl max_sl p R rr et ev mt mv d = some rows ∧
      rows ≠ [] ∧ rows.length = PTS := by
  refine ⟨_, runSweep_include_eq p R rr ev mv d et mt (linspace min_sl max_sl PTS),
    ?_, ?_⟩
  · intro h
    rw [List.map_eq_nil_iff] at h
    exact linspace_ne_nil min_sl max_sl PTS (by norm_num [PTS]) h
  · rw [List.length_map, linspace_length]

/-- Witness for C7: the degenerate range `minStop = maxStop = 1` is swept
silently, yielding 200 rows and no error. -/
theorem degenerate_range_no_validation_witness :
    ∃ rows, fullSweep .includeFees 1 1 1 10 1 .percentOfNotional (1/10) .none 0 1 =
        some rows ∧ rows ≠ [] ∧ rows.length = PTS :=
  degenerate_range_no_validation 1 1 1 10 1 (1/10) 0 1 .percentOfNotional .none le_rfl

/-- Lemma: `min_ok` is NaN (`none`) exactly when no produced row's fee percentage
is within the cap. -/
theorem min_ok_eq_none_iff (rows : List SweepRow) (cap : ℚ) :
    min_ok rows cap = none ↔ ∀ r ∈ rows, ¬ r.fees_pct ≤ cap := by
  simp [min_ok, List.min?_eq_none_iff, List.map_eq_nil_iff, List.filter_eq_nil_iff]

/-- Lemma: `min_ok` returns `s` exactly when `s` is the stop of a qualifying row
and no qualifying row has a smaller stop. -/
theorem min_ok_eq_some_iff (rows : List SweepRow) (cap s : ℚ) :
    min_ok rows cap = some s ↔
      (∃ r ∈ rows, r.fees_pct ≤ cap ∧ r.sl = s) ∧
      (∀ r ∈ rows, r.fees_pct ≤ cap → s ≤ r.sl) := by
  rw [min_ok, @List.min?_eq_some_iff ℚ s _ _ ⟨fun h h' => le_antisymm h h'⟩
    (fun a => le_refl a) (fun a b => min_choice a b) (fun _ _ _ => le_min_iff) _]
  simp only [List.mem_map, List.mem_filter, decide_eq_true_eq]
  constructor
  · rintro ⟨⟨r, ⟨hr, hc⟩, hs⟩, hmin⟩
    exact ⟨⟨r, hr, hc, hs⟩, fun r' hr' hc' => hmin _ ⟨r', ⟨hr', hc'⟩, rfl⟩⟩
  · rintro ⟨⟨r, hr, hc, hs⟩, hmin⟩
    exact ⟨⟨r, ⟨hr, hc⟩, hs⟩, fun b ⟨r', ⟨hr', hc'⟩, hb⟩ => hb ▸ hmin r' hr' hc'⟩

/-- C5.  After a sweep: the minimum viable stop is the smallest
`stopDistance` among produced rows within the fee cap; "no threshold
found" (no vertical line) occurs exactly when the row list is non-empty
but no row qualifies; an empty row list is the distinct
no-feasible-points error; and an actual Policy A sweep (Scenario 3 style:
flat fee `5`, budget `10`, cap `20`) is non-empty yet has no threshold. -/
theorem sweep_report_spec (rows : List SweepRow) (cap : ℚ) :
    (sweepReport rows cap = .noFeasiblePoints ↔ rows = []) ∧
    (rows ≠ [] →
      (sweepReport rows cap = .noThreshold ↔ ∀ r ∈ rows, cap < r.fees_pct)) ∧
    (∀ s, sweepReport rows cap = .threshold s →
      (∃ r ∈ rows, r.fees_pct ≤ cap ∧ r.sl = s) ∧
      (∀ r ∈ rows, r.fees_pct ≤ cap → s ≤ r.sl)) ∧
    (∃ rows2,
      fullSweep .includeFees (1/10000) (1/100) (11/10) 10 1 .flatPerLeg 5 .none 0 1 =
        some rows2 ∧ rows2 ≠ [] ∧ sweepReport rows2 20 = .noThreshold) := by
  refine ⟨?_, ?_, ?_, ?_⟩
  · constructor
    · intro h
      by_contra hne
      rw [sweepReport_of_ne_nil rows cap hne] at h
      rcases hmo : min_ok rows cap with _ | s <;> rw [hmo] at h <;> exact absurd h (by simp)
    · intro h; subst h; rfl
  · intro hne
    rw [sweepReport_of_ne_nil rows cap hne]
    constructor
    · intro h r hr
      rcases hmo : min_ok rows cap with _ | s
      · exact not_le.mp ((min_ok_eq_none_iff rows cap).mp hmo r hr)
      · rw [hmo] at h; exact absurd h (by simp)
    · intro hall
      have hmo : min_ok rows cap = none :=
        (min_ok_eq_none_iff rows cap).mpr (fun r hr => not_le.mpr (hall r hr))
      rw [hmo]
  · intro s hs
    have hne : rows ≠ [] := by
      intro h; subst h
      exact absurd hs (by simp [sweepReport])
    rw [sweepReport_of_ne_nil rows cap hne] at hs
    have hmo : min_ok rows cap = some s := by
      rcases hmo : min_ok rows cap with _ | s' <;> rw [hmo] at hs
      · exact absurd hs (by simp)
      · have h' : s' = s := by simpa using hs
        rw [h']
    exact (min_ok_eq_some_iff rows cap s).mp hmo
  · refine ⟨_, runSweep_include_eq (11/10) 10 1 5 0 1 .flatPerLeg .none
      (linspace (1/10000) (1/100) PTS), ?_, ?_⟩
    · intro h
      rw [List.map_eq_nil_iff] at h
      exact linspace_ne_nil (1/10000) (1/100) PTS (by norm_num [PTS]) h
    · have hall : ∀ r ∈ (linspace (1/10000) (1/100) PTS).map
          (fun stp => mkRow stp (11/10) 10 .flatPerLeg 5 .none 0 1
            (solve_size_exact stp (11/10) 10 .flatPerLeg 5 .none 0 1).1 stp
            (tp_needed (solve_size_exact stp (11/10) 10 .flatPerLeg 5 .none 0 1).1
              (11/10) 1 10 .flatPerLeg 5 .none 0 1)),
          ¬ r.fees_pct ≤ (20 : ℚ) := by
        intro r hr
        rcases List.mem_map.mp hr with ⟨stp, -, rfl⟩
        rw [mkRow_fees_pct _ _ _ _ _ _ _ _ _ _ _ (by norm_num)]
        norm_num [usd_exec_fee, usd_maint_fee]
      have hne : ((linspace (1/10000) (1/100) PTS).map
          (fun stp => mkRow stp (11/10) 10 .flatPerLeg 5 .none 0 1
            (solve_size_exact stp (11/10) 10 .flatPerLeg 5 .none 0 1).1 stp
            (tp_needed (solve_size_exact stp (11/10) 10 .flatPerLeg 5 .none 0 1).1
              (11/10) 1 10 .flatPerLeg 5 .none 0 1))) ≠ [] := by
        intro h
        rw [List.map_eq_nil_iff] at h
        exact linspace_ne_nil (1/10000) (1/100) PTS (by norm_num [PTS]) h
      rw [sweepReport_of_ne_nil _ _ hne, (min_ok_eq_none_iff _ _).mpr hall]

/-- Witness for C5: a one-row table whose single row carries fee
percentage `100` against cap `20` reports "no threshold found". -/
theorem sweep_report_spec_witness :
    sweepReport [mkRow 1 1 10 .flatPerLeg 5 .none 0 1 1 1 none] 20 = .noThreshold :=
  ((sweep_report_spec [mkRow 1 1 10 .flatPerLeg 5 .none 0 1 1 1 none] 20).2.1
      (by simp)).2
    (by intro r hr
        rcases List.mem_singleton.mp hr with rfl
        rw [mkRow_fees_pct _ _ _ _ _ _ _ _ _ _ _ (by norm_num)]
        norm_num [usd_exec_fee, usd_maint_fee])

end StopLossApp
